import Mathlib

/-!
Shallow embedding of the `flix-datalog-rewrite` permutation generator
(`src/genprog.py`) and the fact-file sampling tool (`src/filter_data.py`).

Python exceptions are modelled with `Except GenError`; Python list
indexing `l[i]` (which raises `IndexError` when out of range) is
`pyIndex`; a Python `for`-loop with possible exceptions is `exMap` /
`exFoldl`.  Terms are a type parameter `α` (the source uses strings and
ints interchangeably).
-/

deriving instance DecidableEq for Except

namespace Genprog

/-- Errors raised by the Python source: `Exception(msg)` for arity
mismatches, `IndexError` for out-of-range list indexing, `ValueError`
for a failed tuple unpacking. -/
inductive GenError where
  | arityMismatch (msg : String)
  | indexError
  | valueError
deriving DecidableEq, Repr

/-- Python class Pred: a predicate has a name and an arity; `__eq__` compares
both fields, which coincides with structural equality here. -/
structure Pred where
  name : String
  arity : Nat
deriving DecidableEq, Repr

/-- Python class Atom: predicate, term list, and the recorded permutation. -/
structure Atom (α : Type) where
  pred : Pred
  terms : List α
  permutation : List Nat
deriving DecidableEq, Repr

/-- Python class Rule: head atom plus body atoms (empty body = ground fact). -/
structure Rule (α : Type) where
  head : Atom α
  body : List (Atom α)
deriving DecidableEq, Repr

instance : Inhabited Pred := ⟨⟨"", 0⟩⟩

instance {α : Type} : Inhabited (Atom α) := ⟨⟨default, [], []⟩⟩

instance {α : Type} : Inhabited (Rule α) := ⟨⟨default, []⟩⟩

/-- Python list indexing `l[i]` for a non-negative index: `IndexError`
when `i` is out of range. -/
def pyIndex {α : Type} (l : List α) (i : Nat) : Except GenError α :=
  match l.get? i with
  | some a => .ok a
  | none => .error .indexError

/-- A Python loop that builds a list, aborting at the first exception
(the embedding of `[f(x) for x in xs]` over exception-throwing `f`). -/
def exMap {β γ : Type} (f : β → Except GenError γ) : List β → Except GenError (List γ)
  | [] => .ok []
  | x :: xs =>
    match f x with
    | .error e => .error e
    | .ok y =>
      match exMap f xs with
      | .error e => .error e
      | .ok ys => .ok (y :: ys)

/-- A Python loop folding a value left to right, aborting at the first
exception. -/
def exFoldl {β γ : Type} (f : γ → β → Except GenError γ) (acc : γ) : List β → Except GenError γ
  | [] => .ok acc
  | x :: xs =>
    match f acc x with
    | .error e => .error e
    | .ok y => exFoldl f y xs

/-- The comprehension `[l[i] for i in order]`. -/
def pyMapIndex {α : Type} (l : List α) (order : List Nat) : Except GenError (List α) :=
  exMap (pyIndex l) order

/-- Embedding of Atom construction, `Atom.__init__`: raises when `len(terms) != pred.arity`; the
permutation defaults to the identity `list(range(pred.arity))` and an
explicitly supplied permutation is recorded without any validation. -/
def Atom.init {α : Type} (pred : Pred) (terms : List α) (perm? : Option (List Nat)) :
    Except GenError (Atom α) :=
  if terms.length ≠ pred.arity then
    .error (.arityMismatch "terms must have same length as pred arity")
  else
    .ok ⟨pred, terms, perm?.getD (List.range pred.arity)⟩

/-- Embedding of `Atom.permute`: raises when `len(order) != len(self.terms)`, then
builds `Atom(self.pred, [self.terms[i] for i in order], order)`. -/
def Atom.permute {α : Type} (a : Atom α) (order : List Nat) : Except GenError (Atom α) :=
  if order.length ≠ a.terms.length then
    .error (.arityMismatch "permute order must have same length as terms")
  else
    match pyMapIndex a.terms order with
    | .error e => .error e
    | .ok ts => Atom.init a.pred ts (some order)

/-- Embedding of `Rule.permute_body`: `Rule(self.head, [self.body[i] for i in order])`.
Note the source performs no length check on `order`. -/
def Rule.permute_body {α : Type} (r : Rule α) (order : List Nat) : Except GenError (Rule α) :=
  match pyMapIndex r.body order with
  | .error e => .error e
  | .ok b => .ok ⟨r.head, b⟩

/-- Embedding of `Rule.permute_head`: `Rule(self.head.permute(order), self.body)`. -/
def Rule.permute_head {α : Type} (r : Rule α) (order : List Nat) : Except GenError (Rule α) :=
  match r.head.permute order with
  | .error e => .error e
  | .ok h => .ok ⟨h, r.body⟩

/-- One step of `itertools.permutations`: every way of picking one
element out of a list, paired with the remaining elements in order. -/
def picks {β : Type} : List β → List (β × List β)
  | [] => []
  | a :: as => (a, as) :: (picks as).map (fun p => (p.1, a :: p.2))

/-- Fuel-indexed permutation enumeration (the fuel is the list length). -/
def permsAux {β : Type} : Nat → List β → List (List β)
  | 0, _ => [[]]
  | n + 1, l => (picks l).flatMap (fun p => (permsAux n p.2).map (fun q => p.1 :: q))

/-- Embedding of `itertools.permutations(l)`: all permutations of `l`, in the order
itertools emits them (lexicographic in the positions of `l`). -/
def pyPermutations {β : Type} (l : List β) : List (List β) :=
  permsAux l.length l

/-- Embedding of `itertools.product(*lists)`: the cartesian product, rightmost factor
varying fastest, each element a list choosing one entry per factor. -/
def pyProduct {β : Type} : List (List β) → List (List β)
  | [] => [[]]
  | l :: ls => l.flatMap (fun a => (pyProduct ls).map (fun q => a :: q))

/-- The inner loop of the generator: the list
`[atom.permute(list(order)) for order in itertools.permutations(range(atom.pred.arity))]`. -/
def atomVariants {α : Type} (a : Atom α) : Except GenError (List (Atom α)) :=
  exMap a.permute (pyPermutations (List.range a.pred.arity))

/-- The fact-propagation loop: for each fact, for each atom of the
combination whose predicate equals the fact's head predicate, append
`fact.permute_head(atom.permutation)`. -/
def propagateFacts {α : Type} [DecidableEq α] (facts : List (Rule α)) (comb : List (Atom α)) :
    Except GenError (List (Rule α)) :=
  match exMap (fun fact =>
      exMap (fun atom => Rule.permute_head fact atom.permutation)
        (comb.filter (fun atom => fact.head.pred == atom.pred))) facts with
  | .error e => .error e
  | .ok groups => .ok groups.flatten

/-- The head-propagation loop: starting from the rule's head, for each
atom of the combination with the head's predicate, permute the running
head by that atom's recorded permutation. -/
def propagateHead {α : Type} [DecidableEq α] (h : Atom α) (comb : List (Atom α)) :
    Except GenError (Atom α) :=
  exFoldl (fun hd atom =>
    if hd.pred == atom.pred then hd.permute atom.permutation else .ok hd) h comb

/-- The Permutation Generator (the `__main__` loop of `src/genprog.py`,
run after the caller's choice of body order, e.g. `permute_body([1, 0])`):
per-atom term-permutation enumeration, cartesian product, fact
propagation and head propagation, emitting `(permuted facts, rule)`
pairs. -/
def generator {α : Type} [DecidableEq α] (r : Rule α) (facts : List (Rule α)) :
    Except GenError (List (List (Rule α) × Rule α)) :=
  match exMap atomVariants r.body with
  | .error e => .error e
  | .ok btp =>
    exMap (fun comb =>
      match propagateFacts facts comb with
      | .error e => .error e
      | .ok pfs =>
        match propagateHead r.head comb with
        | .error e => .error e
        | .ok hd => .ok (pfs, Rule.mk hd comb)) (pyProduct btp)

/-- Python `str.split(sep)` for a one-character separator (no merging of
adjacent separators, `""` splits to `[""]`). -/
def pySplitOn (sep : Char) : List Char → List (List Char)
  | [] => [[]]
  | c :: rest =>
    let r := pySplitOn sep rest
    if c = sep then [] :: r
    else
      match r with
      | [] => [[c]]
      | g :: gs => (c :: g) :: gs

/-- Embedding of `filter_facts` from `src/filter_data.py`: split the file name on
`.` and unpack into `basename, ext` (a `ValueError` unless there are
exactly two parts), shuffle the lines (the shuffle outcome is passed in
as `shuffled`), and write the first `min(num, len(lines))` shuffled
lines to `basename + "-" + str(num) + "." + ext`. -/
def filter_facts (filename : List Char) (num : Nat) (shuffled : List String) :
    Except GenError (List Char × List String) :=
  match pySplitOn '.' filename with
  | [basename, ext] =>
    .ok (basename ++ ('-' :: (Nat.toDigits 10 num ++ ('.' :: ext))),
      shuffled.take (min num shuffled.length))
  | _ => .error .valueError

/-- Well-formedness of an atom as guaranteed by `Atom.__init__` in the
source (every Python `Atom` satisfies it): the term list has the
predicate's arity. -/
def Atom.WF {α : Type} (a : Atom α) : Prop :=
  a.terms.length = a.pred.arity

instance {α : Type} (a : Atom α) : Decidable a.WF := by
  unfold Atom.WF; infer_instance

/-- Pure model of a successful `Atom.permute` (used to state what the
exception-threaded code computes). -/
def permApply {α : Type} [Inhabited α] (a : Atom α) (order : List Nat) : Atom α :=
  ⟨a.pred, order.map (fun i => a.terms.getD i default), order⟩

/-- Pure model of `atomVariants` on a well-formed atom. -/
def variantsP {α : Type} [Inhabited α] (a : Atom α) : List (Atom α) :=
  (pyPermutations (List.range a.pred.arity)).map (permApply a)

/-- Pure model of the combination stream of the generator. -/
def combosP {α : Type} [Inhabited α] (r : Rule α) : List (List (Atom α)) :=
  pyProduct (r.body.map variantsP)

/-- Pure model of fact propagation. -/
def pfsP {α : Type} [Inhabited α] [DecidableEq α] (facts : List (Rule α))
    (comb : List (Atom α)) : List (Rule α) :=
  facts.flatMap (fun f =>
    (comb.filter (fun a => f.head.pred == a.pred)).map
      (fun a => ⟨permApply f.head a.permutation, f.body⟩))

/-- Pure model of head propagation. -/
def headFoldP {α : Type} [Inhabited α] [DecidableEq α] (h : Atom α)
    (comb : List (Atom α)) : Atom α :=
  comb.foldl (fun hd a => if hd.pred == a.pred then permApply hd a.permutation else hd) h

/-- The inverse of a permutation `p` of `0..n-1`, as a list:
`invPerm p !! j` is the position of `j` in `p`. -/
def invPerm (p : List Nat) : List Nat :=
  (List.range p.length).map (fun j => p.indexOf j)

/-! ### Concrete inputs used by witnesses and counterexamples -/

def pP2 : Pred := ⟨"P", 2⟩

def pP3 : Pred := ⟨"P", 3⟩

def pQ2 : Pred := ⟨"Q", 2⟩

def pR2 : Pred := ⟨"R", 2⟩

/-- A well-formed binary atom `P(1, 2)` with the identity permutation. -/
def atomN2 : Atom Nat := ⟨pP2, [1, 2], [0, 1]⟩

/-- A rule whose two body atoms share the head predicate `R`:
`R(1,2) :- R(3,4), R(5,6).` -/
def ruleRR : Rule Nat := ⟨⟨pR2, [1, 2], [0, 1]⟩, [⟨pR2, [3, 4], [0, 1]⟩, ⟨pR2, [5, 6], [0, 1]⟩]⟩

/-- The fourth combination the generator emits for `ruleRR` (both body
atoms term-swapped). -/
def prRR : List (Rule Nat) × Rule Nat :=
  ([], ⟨⟨pR2, [1, 2], [1, 0]⟩, [⟨pR2, [4, 3], [1, 0]⟩, ⟨pR2, [6, 5], [1, 0]⟩]⟩)

/-- A rule with two body atoms of distinct predicates:
`R(1,2) :- P(3,4), Q(5,6).` -/
def rulePQ : Rule Nat := ⟨⟨pR2, [1, 2], [0, 1]⟩, [⟨pP2, [3, 4], [0, 1]⟩, ⟨pQ2, [5, 6], [0, 1]⟩]⟩

/-- A rule with a single body atom: `R(1,2) :- P(3,4).` -/
def ruleP : Rule Nat := ⟨⟨pR2, [1, 2], [0, 1]⟩, [⟨pP2, [3, 4], [0, 1]⟩]⟩

/-- A ground fact `P(7, 8).` -/
def factP : Rule Nat := ⟨⟨pP2, [7, 8], [0, 1]⟩, []⟩

/-- A ground fact `R(7, 8).` -/
def factR : Rule Nat := ⟨⟨pR2, [7, 8], [0, 1]⟩, []⟩

/-- A file name with two dots, `a.b.c`. -/
def fnameBad : List Char := ['a', '.', 'b', '.', 'c']

/-- A file name with exactly one dot, `a.b`. -/
def fnameGood : List Char := ['a', '.', 'b']

/-! ### Helper lemmas: exception-threaded loops -/

theorem exMap_ok {β γ : Type} (f : β → Except GenError γ) (g : β → γ) :
    ∀ xs : List β, (∀ x ∈ xs, f x = .ok (g x)) → exMap f xs = .ok (xs.map g)
  | [], _ => rfl
  | x :: xs, h => by
    have hx := h x (List.mem_cons_self x xs)
    have hxs := exMap_ok f g xs (fun y hy => h y (List.mem_cons_of_mem x hy))
    simp [exMap, hx, hxs]

theorem pyIndex_ok {α : Type} [Inhabited α] {l : List α} {i : Nat} (h : i < l.length) :
    pyIndex l i = .ok (l.getD i default) := by
  unfold pyIndex
  rw [List.get?_eq_getElem?, List.getD_eq_getElem?_getD]
  have : l[i]? = some l[i] := List.getElem?_eq_getElem h
  rw [this]
  rfl

theorem pyIndex_err {α : Type} {l : List α} {i : Nat} (h : l.length ≤ i) :
    pyIndex l i = .error .indexError := by
  unfold pyIndex
  rw [List.get?_eq_getElem?, List.getElem?_eq_none h]

theorem pyMapIndex_ok {α : Type} [Inhabited α] {l : List α} {order : List Nat}
    (h : ∀ i ∈ order, i < l.length) :
    pyMapIndex l order = .ok (order.map (fun i => l.getD i default)) :=
  exMap_ok _ _ order (fun i hi => pyIndex_ok (h i hi))

theorem getD_map_range {α : Type} [Inhabited α] (l : List α) :
    (List.range l.length).map (fun i => l.getD i default) = l := by
  apply List.ext_getElem
  · simp
  · intro n h1 h2
    rw [List.getElem_map]
    rw [List.getElem_range]
    rw [List.getD_eq_getElem _ _ h2]

theorem map_getD_perm {α : Type} [Inhabited α] {l : List α} {order : List Nat}
    (h : List.Perm order (List.range l.length)) :
    List.Perm (order.map (fun i => l.getD i default)) l := by
  have := h.map (fun i => l.getD i default)
  rw [getD_map_range] at this
  exact this

theorem perm_range_length {order : List Nat} {n : Nat}
    (h : List.Perm order (List.range n)) : order.length = n := by
  have := h.length_eq
  simpa using this

theorem perm_range_mem_lt {order : List Nat} {n : Nat}
    (h : List.Perm order (List.range n)) : ∀ i ∈ order, i < n := by
  intro i hi
  have := h.mem_iff.mp hi
  simpa [List.mem_range] using this

/-! ### Helper lemmas: Atom operations -/

theorem permApply_pred {α : Type} [Inhabited α] (a : Atom α) (order : List Nat) :
    (permApply a order).pred = a.pred := rfl

theorem permApply_perm_field {α : Type} [Inhabited α] (a : Atom α) (order : List Nat) :
    (permApply a order).permutation = order := rfl

theorem permApply_terms_length {α : Type} [Inhabited α] (a : Atom α) (order : List Nat) :
    (permApply a order).terms.length = order.length := by
  simp [permApply]

theorem Atom.permute_ok {α : Type} [Inhabited α] {a : Atom α} {order : List Nat}
    (hw : a.WF) (hlen : order.length = a.terms.length)
    (hb : ∀ i ∈ order, i < a.terms.length) :
    a.permute order = .ok (permApply a order) := by
  unfold Atom.permute
  rw [if_neg (by omega)]
  rw [pyMapIndex_ok hb]
  show Atom.init a.pred (List.map (fun i => a.terms.getD i default) order) (some order) = _
  unfold Atom.init
  rw [if_neg (by simp only [List.length_map, ne_eq, not_not]; rw [Atom.WF] at hw; omega)]
  rfl

theorem Atom.permute_ok_of_perm_range {α : Type} [Inhabited α] {a : Atom α} {order : List Nat}
    (hw : a.WF) (hp : List.Perm order (List.range a.pred.arity)) :
    a.permute order = .ok (permApply a order) := by
  have hlen := perm_range_length hp
  have hmem := perm_range_mem_lt hp
  rw [Atom.WF] at hw
  exact Atom.permute_ok hw (by omega) (fun i hi => by have := hmem i hi; omega)

theorem permApply_WF {α : Type} [Inhabited α] {a : Atom α} {order : List Nat}
    (hp : order.length = a.pred.arity) : (permApply a order).WF := by
  rw [Atom.WF]
  simp [permApply, hp]

theorem permApply_terms_perm {α : Type} [Inhabited α] {a : Atom α} {order : List Nat}
    (hw : a.WF) (hp : List.Perm order (List.range a.pred.arity)) :
    List.Perm (permApply a order).terms a.terms := by
  rw [Atom.WF] at hw
  rw [← hw] at hp
  exact map_getD_perm hp

/-! ### Helper lemmas: permutation and product enumeration -/

theorem sum_map_const {β : Type} (L : List β) (f : β → Nat) (c : Nat)
    (h : ∀ x ∈ L, f x = c) : (L.map f).sum = L.length * c := by
  induction L with
  | nil => simp
  | cons x xs ih =>
    have hx := h x (List.mem_cons_self x xs)
    have := ih (fun y hy => h y (List.mem_cons_of_mem x hy))
    simp [hx, this, Nat.succ_mul, Nat.add_comm]

theorem mem_picks {β : Type} {l : List β} {p : β × List β} :
    p ∈ picks l ↔ ∃ l₁ l₂, l = l₁ ++ p.1 :: l₂ ∧ p.2 = l₁ ++ l₂ := by
  induction l generalizing p with
  | nil => simp [picks]
  | cons a as ih =>
    simp only [picks, List.mem_cons, List.mem_map]
    constructor
    · rintro (rfl | ⟨q, hq, rfl⟩)
      · exact ⟨[], as, rfl, rfl⟩
      · obtain ⟨l₁, l₂, h1, h2⟩ := ih.mp hq
        exact ⟨a :: l₁, l₂, by simp [h1], by simp [h2]⟩
    · rintro ⟨l₁, l₂, h1, h2⟩
      cases l₁ with
      | nil =>
        left
        obtain ⟨p1, p2⟩ := p
        simp only [List.nil_append] at h1 h2
        cases h1
        simpa using h2
      | cons b l₁ =>
        right
        obtain ⟨p1, p2⟩ := p
        simp only [List.cons_append, List.cons.injEq] at h1
        obtain ⟨rfl, h1⟩ := h1
        refine ⟨(p1, l₁ ++ l₂), ih.mpr ⟨l₁, l₂, by simpa using h1, rfl⟩, ?_⟩
        simp_all

theorem mem_picks_perm {β : Type} {l : List β} {p : β × List β} (h : p ∈ picks l) :
    List.Perm (p.1 :: p.2) l := by
  obtain ⟨l₁, l₂, rfl, h2⟩ := mem_picks.mp h
  rw [h2]
  exact List.perm_middle.symm

theorem mem_picks_length {β : Type} {l : List β} {p : β × List β} (h : p ∈ picks l) :
    p.2.length + 1 = l.length :=
  (mem_picks_perm h).length_eq

theorem picks_map_fst {β : Type} (l : List β) : (picks l).map Prod.fst = l := by
  induction l with
  | nil => rfl
  | cons a as ih => simp [picks, List.map_map, Function.comp_def, ih]

theorem picks_length {β : Type} (l : List β) : (picks l).length = l.length := by
  have := congrArg List.length (picks_map_fst l)
  simpa using this

theorem pick_of_perm {β : Type} {l xs : List β} {x : β}
    (h : List.Perm (x :: xs) l) : ∃ rest, (x, rest) ∈ picks l ∧ List.Perm xs rest := by
  have hx : x ∈ l := h.mem_iff.mp (List.mem_cons_self x xs)
  obtain ⟨s, t, rfl⟩ := List.append_of_mem hx
  refine ⟨s ++ t, mem_picks.mpr ⟨s, t, rfl, rfl⟩, ?_⟩
  have h2 : List.Perm (x :: xs) (x :: (s ++ t)) := h.trans List.perm_middle
  exact h2.cons_inv

theorem length_permsAux {β : Type} :
    ∀ {n : Nat} {l : List β}, l.length = n → (permsAux n l).length = n.factorial := by
  intro n
  induction n with
  | zero => intro l _; simp [permsAux, Nat.factorial]
  | succ n ih =>
    intro l hn
    rw [permsAux, List.length_flatMap]
    have : ∀ p ∈ picks l, (List.length ∘ fun p => (permsAux n p.2).map (fun q => p.1 :: q)) p
        = n.factorial := by
      intro p hp
      have hlen : p.2.length = n := by have := mem_picks_length hp; omega
      simp [ih hlen]
    rw [sum_map_const _ _ _ this, picks_length, hn, Nat.factorial_succ]

theorem mem_permsAux {β : Type} :
    ∀ {n : Nat} {l q : List β}, l.length = n → (q ∈ permsAux n l ↔ List.Perm q l) := by
  intro n
  induction n with
  | zero =>
    intro l q hn
    rw [List.length_eq_zero] at hn
    subst hn
    simp [permsAux, List.perm_nil]
  | succ n ih =>
    intro l q hn
    rw [permsAux]
    simp only [List.mem_flatMap, List.mem_map]
    constructor
    · rintro ⟨p, hp, q', hq', rfl⟩
      have hlen : p.2.length = n := by have := mem_picks_length hp; omega
      have : List.Perm q' p.2 := (ih hlen).mp hq'
      exact (this.cons p.1).trans (mem_picks_perm hp)
    · intro hq
      cases q with
      | nil => have := hq.length_eq; simp [hn] at this
      | cons x xs =>
        obtain ⟨rest, hmem, hperm⟩ := pick_of_perm hq
        have hlen : rest.length = n := by
          have := mem_picks_length (p := (x, rest)) hmem; simp at this; omega
        exact ⟨(x, rest), hmem, xs, (ih hlen).mpr hperm, rfl⟩

theorem nodup_permsAux {β : Type} :
    ∀ {n : Nat} {l : List β}, l.length = n → l.Nodup → (permsAux n l).Nodup := by
  intro n
  induction n with
  | zero => intro l _ _; simp [permsAux]
  | succ n ih =>
    intro l hn hnd
    rw [permsAux, List.nodup_flatMap]
    constructor
    · intro p hp
      have hlen : p.2.length = n := by have := mem_picks_length hp; omega
      have hsub : p.2.Nodup := by
        obtain ⟨l₁, l₂, rfl, h2⟩ := mem_picks.mp hp
        rw [h2]
        exact ((List.Sublist.refl l₁).append (List.sublist_cons_self p.1 l₂)).nodup hnd
      exact (ih hlen hsub).map List.cons_injective
    · have hfst : List.Pairwise (fun p q : β × List β => p.1 ≠ q.1) (picks l) := by
        have : ((picks l).map Prod.fst).Nodup := by rw [picks_map_fst]; exact hnd
        rw [List.Nodup, List.pairwise_map] at this
        exact this
      refine hfst.imp ?_
      intro p q hpq
      intro zs hzp hzq
      simp only [List.mem_map] at hzp hzq
      obtain ⟨q1, _, rfl⟩ := hzp
      obtain ⟨q2, _, heq⟩ := hzq
      injection heq with h1 _
      exact hpq h1.symm

theorem length_pyPermutations {β : Type} (l : List β) :
    (pyPermutations l).length = l.length.factorial :=
  length_permsAux rfl

theorem mem_pyPermutations {β : Type} {l q : List β} :
    q ∈ pyPermutations l ↔ List.Perm q l :=
  mem_permsAux rfl

theorem nodup_pyPermutations {β : Type} {l : List β} (h : l.Nodup) :
    (pyPermutations l).Nodup :=
  nodup_permsAux rfl h

theorem length_pyProduct {β : Type} :
    ∀ ls : List (List β), (pyProduct ls).length = (ls.map List.length).prod := by
  intro ls
  induction ls with
  | nil => rfl
  | cons l ls ih =>
    rw [pyProduct, List.length_flatMap]
    have : ∀ a ∈ l, (List.length ∘ fun a => (pyProduct ls).map (fun q => a :: q)) a
        = (pyProduct ls).length := by intro a _; simp
    rw [sum_map_const _ _ _ this, ih]
    simp

theorem mem_pyProduct {β : Type} :
    ∀ {ls : List (List β)} {qs : List β},
      qs ∈ pyProduct ls ↔ List.Forall₂ (fun a l => a ∈ l) qs ls := by
  intro ls
  induction ls with
  | nil =>
    intro qs
    simp [pyProduct, List.forall₂_nil_right_iff]
  | cons l ls ih =>
    intro qs
    rw [pyProduct]
    simp only [List.mem_flatMap, List.mem_map, List.forall₂_cons_right_iff]
    constructor
    · rintro ⟨a, ha, q', hq', rfl⟩
      exact ⟨a, q', ha, ih.mp hq', rfl⟩
    · rintro ⟨a, q', ha, hq', rfl⟩
      exact ⟨a, ha, q', ih.mpr hq', rfl⟩

theorem nodup_pyProduct {β : Type} :
    ∀ {ls : List (List β)}, (∀ l ∈ ls, l.Nodup) → (pyProduct ls).Nodup := by
  intro ls
  induction ls with
  | nil => intro _; simp [pyProduct]
  | cons l ls ih =>
    intro h
    rw [pyProduct, List.nodup_flatMap]
    constructor
    · intro a _
      exact (ih (fun l' hl' => h l' (List.mem_cons_of_mem l hl'))).map List.cons_injective
    · have hl : l.Nodup := h l (List.mem_cons_self l ls)
      refine hl.imp ?_
      intro a b hab
      intro zs hza hzb
      simp only [List.mem_map] at hza hzb
      obtain ⟨q1, _, rfl⟩ := hza
      obtain ⟨q2, _, heq⟩ := hzb
      injection heq with h1 _
      exact hab h1.symm

/-! ### Helper lemmas: the generator pipeline -/

theorem forall₂_mem_left {β γ : Type} {R : β → γ → Prop} :
    ∀ {l1 : List β} {l2 : List γ}, List.Forall₂ R l1 l2 → ∀ x ∈ l1, ∃ y ∈ l2, R x y := by
  intro l1 l2 h
  induction h with
  | nil => intro x hx; cases hx
  | cons hR _ ih =>
    intro x hx
    rcases List.mem_cons.mp hx with rfl | hx
    · exact ⟨_, List.mem_cons_self _ _, hR⟩
    · obtain ⟨y, hy, hRy⟩ := ih x hx
      exact ⟨y, List.mem_cons_of_mem _ hy, hRy⟩

theorem mem_variantsP {α : Type} [Inhabited α] {a a' : Atom α} :
    a' ∈ variantsP a ↔
      ∃ ord, List.Perm ord (List.range a.pred.arity) ∧ a' = permApply a ord := by
  simp only [variantsP, List.mem_map, mem_pyPermutations]
  constructor
  · rintro ⟨ord, h1, rfl⟩; exact ⟨ord, h1, rfl⟩
  · rintro ⟨ord, h1, rfl⟩; exact ⟨ord, h1, rfl⟩

theorem atomVariants_ok {α : Type} [Inhabited α] {a : Atom α} (hw : a.WF) :
    atomVariants a = .ok (variantsP a) := by
  unfold atomVariants variantsP
  exact exMap_ok _ _ _ (fun ord hord =>
    Atom.permute_ok_of_perm_range hw (mem_pyPermutations.mp hord))

theorem mem_combosP {α : Type} [Inhabited α] {r : Rule α} {comb : List (Atom α)} :
    comb ∈ combosP r ↔ List.Forall₂ (fun a b => a ∈ variantsP b) comb r.body := by
  rw [combosP, mem_pyProduct, List.forall₂_map_right_iff]

theorem comb_atom_spec {α : Type} [Inhabited α] {r : Rule α} {comb : List (Atom α)}
    (hc : comb ∈ combosP r) :
    ∀ a ∈ comb, ∃ b ∈ r.body, a.pred = b.pred ∧
      List.Perm a.permutation (List.range a.pred.arity) ∧
      a.terms.length = a.pred.arity ∧ a = permApply b a.permutation := by
  intro a ha
  obtain ⟨b, hb, hab⟩ := forall₂_mem_left (mem_combosP.mp hc) a ha
  obtain ⟨ord, hord, rfl⟩ := mem_variantsP.mp hab
  refine ⟨b, hb, rfl, ?_, ?_, ?_⟩
  · simpa [permApply] using hord
  · simp [permApply, perm_range_length hord]
  · simp [permApply]

theorem comb_perm_field {α : Type} [Inhabited α] {r : Rule α} {comb : List (Atom α)}
    (hc : comb ∈ combosP r) :
    ∀ a ∈ comb, List.Perm a.permutation (List.range a.pred.arity) := by
  intro a ha
  obtain ⟨_, _, _, h, _⟩ := comb_atom_spec hc a ha
  exact h

theorem Rule.permute_head_ok {α : Type} [Inhabited α] {f : Rule α} {order : List Nat}
    (hw : f.head.WF) (hp : List.Perm order (List.range f.head.pred.arity)) :
    Rule.permute_head f order = .ok ⟨permApply f.head order, f.body⟩ := by
  unfold Rule.permute_head
  rw [Atom.permute_ok_of_perm_range hw hp]

theorem propagateFacts_ok {α : Type} [Inhabited α] [DecidableEq α]
    {facts : List (Rule α)} {comb : List (Atom α)}
    (hf : ∀ f ∈ facts, f.head.WF)
    (hc : ∀ a ∈ comb, List.Perm a.permutation (List.range a.pred.arity)) :
    propagateFacts facts comb = .ok (pfsP facts comb) := by
  unfold propagateFacts
  have houter : exMap (fun fact =>
      exMap (fun atom => Rule.permute_head fact atom.permutation)
        (comb.filter (fun atom => fact.head.pred == atom.pred))) facts
      = .ok (facts.map (fun f =>
          (comb.filter (fun a => f.head.pred == a.pred)).map
            (fun a => (⟨permApply f.head a.permutation, f.body⟩ : Rule α)))) := by
    apply exMap_ok
    intro f hfmem
    apply exMap_ok
    intro a hamem
    obtain ⟨hain, hpred⟩ := List.mem_filter.mp hamem
    have heq : f.head.pred = a.pred := by simpa using hpred
    have hp : List.Perm a.permutation (List.range f.head.pred.arity) := by
      rw [heq]; exact hc a hain
    exact Rule.permute_head_ok (hf f hfmem) hp
  rw [houter]
  rw [pfsP, List.flatMap_def]

theorem propagateHead_ok {α : Type} [Inhabited α] [DecidableEq α] :
    ∀ {comb : List (Atom α)} {h : Atom α}, h.WF →
      (∀ a ∈ comb, List.Perm a.permutation (List.range a.pred.arity)) →
      propagateHead h comb = .ok (headFoldP h comb) := by
  intro comb
  induction comb with
  | nil => intro h _ _; rfl
  | cons a comb ih =>
    intro h hw hc
    rw [propagateHead, exFoldl, headFoldP, List.foldl_cons]
    by_cases hpred : h.pred = a.pred
    · have hbeq : (h.pred == a.pred) = true := by simpa using hpred
      have hp : List.Perm a.permutation (List.range h.pred.arity) := by
        rw [hpred]; exact hc a (List.mem_cons_self a comb)
      rw [if_pos hbeq, Atom.permute_ok_of_perm_range hw hp]
      rw [if_pos hbeq]
      have hw' : (permApply h a.permutation).WF :=
        permApply_WF (by rw [perm_range_length hp])
      have := ih hw' (fun x hx => hc x (List.mem_cons_of_mem a hx))
      rw [propagateHead] at this
      exact this
    · have hbeq : (h.pred == a.pred) = false := by simpa using hpred
      rw [if_neg (by simp [hbeq]), if_neg (by simp [hbeq])]
      have := ih hw (fun x hx => hc x (List.mem_cons_of_mem a hx))
      rw [propagateHead] at this
      exact this

theorem generator_ok {α : Type} [Inhabited α] [DecidableEq α]
    {r : Rule α} {facts : List (Rule α)}
    (hb : ∀ a ∈ r.body, a.WF) (hh : r.head.WF) (hf : ∀ f ∈ facts, f.head.WF) :
    generator r facts = .ok ((combosP r).map
      (fun comb => (pfsP facts comb, Rule.mk (headFoldP r.head comb) comb))) := by
  unfold generator
  rw [exMap_ok atomVariants variantsP r.body (fun a ha => atomVariants_ok (hb a ha))]
  show exMap _ (pyProduct (r.body.map variantsP)) = _
  apply exMap_ok
  intro comb hcomb
  have hcomb' : comb ∈ combosP r := by rw [combosP]; exact hcomb
  have hperms := comb_perm_field hcomb'
  rw [propagateFacts_ok hf hperms]
  rw [propagateHead_ok hh hperms]

/-! ### Helper lemmas: error inversion and head-fold characterization -/

theorem exMap_ok_length {β γ : Type} {f : β → Except GenError γ} :
    ∀ {xs : List β} {ys : List γ}, exMap f xs = .ok ys → ys.length = xs.length := by
  intro xs
  induction xs with
  | nil => intro ys h; cases h; rfl
  | cons x xs ih =>
    intro ys h
    rw [exMap] at h
    cases hx : f x with
    | error e => rw [hx] at h; cases h
    | ok y =>
      rw [hx] at h
      cases hxs : exMap f xs with
      | error e => rw [hxs] at h; cases h
      | ok ys' =>
        rw [hxs] at h
        cases h
        simp [ih hxs]

theorem pyMapIndex_error {α : Type} {l : List α} :
    ∀ {order : List Nat} {e : GenError}, pyMapIndex l order = .error e → e = .indexError := by
  intro order
  induction order with
  | nil => intro e h; cases h
  | cons i is ih =>
    intro e h
    rw [pyMapIndex, exMap] at h
    cases hi : pyIndex l i with
    | error e' =>
      rw [hi] at h
      cases h
      unfold pyIndex at hi
      cases hget : l.get? i with
      | none => rw [hget] at hi; cases hi; rfl
      | some a => rw [hget] at hi; cases hi
    | ok a =>
      rw [hi] at h
      cases his : exMap (pyIndex l) is with
      | error e' =>
        rw [his] at h
        cases h
        exact ih his
      | ok ys => rw [his] at h; cases h

theorem Atom.permute_ok_inv {α : Type} {a b : Atom α} {order : List Nat}
    (h : a.permute order = .ok b) :
    b.pred = a.pred ∧ b.permutation = order ∧ b.terms.length = b.pred.arity ∧
      order.length = a.terms.length := by
  unfold Atom.permute at h
  by_cases hlen : order.length = a.terms.length
  · rw [if_neg (by omega)] at h
    cases hts : pyMapIndex a.terms order with
    | error e => rw [hts] at h; cases h
    | ok ts =>
      rw [hts] at h
      have hh : Atom.init a.pred ts (some order) = .ok b := h
      unfold Atom.init at hh
      by_cases hta : ts.length = a.pred.arity
      · rw [if_neg (by omega)] at hh
        cases hh
        exact ⟨rfl, rfl, hta, hlen⟩
      · rw [if_pos (by omega)] at hh
        cases hh
  · rw [if_pos (by omega)] at h
    cases h

theorem headFoldP_pred {α : Type} [Inhabited α] [DecidableEq α] :
    ∀ {comb : List (Atom α)} {h : Atom α}, (headFoldP h comb).pred = h.pred := by
  intro comb
  induction comb with
  | nil => intro h; rfl
  | cons a comb ih =>
    intro h
    rw [headFoldP, List.foldl_cons]
    by_cases hpred : h.pred = a.pred
    · rw [if_pos (by simpa using hpred)]
      simp only [headFoldP] at ih
      rw [ih]
      rfl
    · rw [if_neg (by simpa using hpred)]
      simp only [headFoldP] at ih
      exact ih

theorem headFoldP_eq_filter {α : Type} [Inhabited α] [DecidableEq α] :
    ∀ {comb : List (Atom α)} {h : Atom α},
      headFoldP h comb = (comb.filter (fun a => h.pred == a.pred)).foldl
        (fun hd a => permApply hd a.permutation) h := by
  intro comb
  induction comb with
  | nil => intro h; rfl
  | cons a comb ih =>
    intro h
    rw [headFoldP, List.foldl_cons, List.filter_cons]
    by_cases hpred : h.pred = a.pred
    · have hbeq : (h.pred == a.pred) = true := by simpa using hpred
      rw [if_pos hbeq, hbeq]
      simp only [if_true, List.foldl_cons]
      simp only [headFoldP] at ih
      rw [ih]
      have : (permApply h a.permutation).pred = h.pred := rfl
      rw [this]
    · have hbeq : (h.pred == a.pred) = false := by simpa using hpred
      rw [if_neg (by simp [hbeq]), hbeq]
      simp only [Bool.false_eq_true, if_false]
      simp only [headFoldP] at ih
      exact ih

theorem combosP_complete {α : Type} [Inhabited α] :
    ∀ {body : List (Atom α)} {perms : List (List Nat)},
      List.Forall₂ (fun p (a : Atom α) => List.Perm p (List.range a.pred.arity)) perms body →
      ∃ comb, List.Forall₂ (fun a b => a ∈ variantsP b) comb body ∧
        comb.map Atom.permutation = perms := by
  intro body perms h
  induction h with
  | nil => exact ⟨[], List.Forall₂.nil, rfl⟩
  | cons hR _ ih =>
    obtain ⟨comb, hcomb, hmap⟩ := ih
    refine ⟨_ :: comb, List.Forall₂.cons (mem_variantsP.mpr ⟨_, hR, rfl⟩) hcomb, ?_⟩
    simp [hmap]
    rfl

theorem variantsP_nodup {α : Type} [Inhabited α] (a : Atom α) : (variantsP a).Nodup := by
  apply List.Nodup.map
  · intro o1 o2 h
    have := congrArg Atom.permutation h
    simpa [permApply] using this
  · exact nodup_pyPermutations (List.nodup_range _)

theorem pfsP_mem {α : Type} [Inhabited α] [DecidableEq α]
    {facts : List (Rule α)} {comb : List (Atom α)} {pf : Rule α}
    (h : pf ∈ pfsP facts comb) :
    ∃ f ∈ facts, ∃ a ∈ comb, f.head.pred = a.pred ∧
      pf = ⟨permApply f.head a.permutation, f.body⟩ := by
  rw [pfsP, List.mem_flatMap] at h
  obtain ⟨f, hf, hpf⟩ := h
  rw [List.mem_map] at hpf
  obtain ⟨a, ha, rfl⟩ := hpf
  obtain ⟨hain, hpred⟩ := List.mem_filter.mp ha
  exact ⟨f, hf, a, hain, by simpa using hpred, rfl⟩

example : pyPermutations (List.range 3) =
    [[0, 1, 2], [0, 2, 1], [1, 0, 2], [1, 2, 0], [2, 0, 1], [2, 1, 0]] := by decide

example : pyProduct [[1, 2], [3, 4]] = [[1, 3], [1, 4], [2, 3], [2, 4]] := by decide

example : pySplitOn '.' ['a', '.', 'b'] = [['a'], ['b']] := by decide

example : Atom.init (α := Nat) ⟨"P", 2⟩ [5, 7] none = .ok ⟨⟨"P", 2⟩, [5, 7], [0, 1]⟩ := by decide


/-! ### Claim theorems -/

theorem flatMap_const_nil {β γ : Type} :
    ∀ l : List β, l.flatMap (fun _ => ([] : List γ)) = [] := by
  intro l
  induction l with
  | nil => rfl
  | cons x xs ih => simp [ih]

/-- C1: for every rule whose body atoms have arities `a1..ak` (and any
well-formed facts), the generator succeeds and emits exactly
`a1! * ... * ak!` combinations, with no duplicate combination and no
omitted combination (every choice of per-atom permutations is realized);
a rule with empty body yields exactly one combination whose emitted rule
equals the original unpermuted rule. -/
theorem C1_generator_count_nodup_complete {α : Type} [Inhabited α] [DecidableEq α]
    (r : Rule α) (facts : List (Rule α))
    (hb : ∀ a ∈ r.body, a.WF) (hh : r.head.WF) (hf : ∀ f ∈ facts, f.head.WF) :
    ∃ out, generator r facts = .ok out ∧
      out.length = (r.body.map (fun a => Nat.factorial a.pred.arity)).prod ∧
      (out.map (fun pr => pr.2.body)).Nodup ∧
      (∀ perms : List (List Nat),
        List.Forall₂ (fun p (a : Atom α) => List.Perm p (List.range a.pred.arity)) perms r.body →
        ∃ pr ∈ out, pr.2.body.map Atom.permutation = perms) ∧
      (r.body = [] → out = [([], r)]) := by
  refine ⟨_, generator_ok hb hh hf, ?_, ?_, ?_, ?_⟩
  · rw [List.length_map, combosP, length_pyProduct, List.map_map]
    have : (List.length ∘ variantsP (α := α)) = fun a => Nat.factorial a.pred.arity := by
      funext a
      simp [variantsP, length_pyPermutations]
    rw [this]
  · have hmm : (((combosP r).map
        (fun comb => (pfsP facts comb, Rule.mk (headFoldP r.head comb) comb))).map
          (fun pr => pr.2.body)) = combosP r := by
      rw [List.map_map]
      simp [Function.comp_def]
    rw [hmm]
    apply nodup_pyProduct
    intro l hl
    rw [List.mem_map] at hl
    obtain ⟨a, _, rfl⟩ := hl
    exact variantsP_nodup a
  · intro perms hperms
    obtain ⟨comb, hcomb, hmap⟩ := combosP_complete hperms
    exact ⟨_, List.mem_map_of_mem _ (mem_combosP.mpr hcomb), hmap⟩
  · intro hbody
    obtain ⟨hd, bd⟩ := r
    simp only at hbody
    subst hbody
    simp only [combosP, List.map_nil, pyProduct, List.map_cons, List.map_nil]
    have h1 : pfsP facts ([] : List (Atom α)) = [] := by
      simp [pfsP, flatMap_const_nil]
    have h2 : headFoldP hd ([] : List (Atom α)) = hd := rfl
    rw [h1, h2]

theorem C1_witness :
    ∃ out, generator ruleP [factP] = .ok out ∧
      out.length = (ruleP.body.map (fun a => Nat.factorial a.pred.arity)).prod ∧
      (out.map (fun pr => pr.2.body)).Nodup ∧
      (∀ perms : List (List Nat),
        List.Forall₂ (fun p (a : Atom Nat) => List.Perm p (List.range a.pred.arity))
          perms ruleP.body →
        ∃ pr ∈ out, pr.2.body.map Atom.permutation = perms) ∧
      (ruleP.body = [] → out = [([], ruleP)]) :=
  C1_generator_count_nodup_complete ruleP [factP]
    (by decide) (by decide) (by decide)
/-- C2 fails on the code: in the emitted combination `prRR` of `ruleRR`
two body atoms carry the head's predicate and the code permutes the head
once per matching atom, so the emitted head equals neither single-atom
permutation of the original head. -/
theorem C2_counterexample :
    prRR ∈ (generator ruleRR []).toOption.getD [] ∧
    (∃ a ∈ prRR.2.body, a.pred = ruleRR.head.pred) ∧
    ∀ a ∈ prRR.2.body, a.pred = ruleRR.head.pred →
      Atom.permute ruleRR.head a.permutation ≠ .ok prRR.2.head := by decide

/-- C2 (amended): the emitted head is the rule's head with the recorded
permutation of every matching atom applied in sequence (combination
order); hence it is unchanged when no atom matches, and equals the head
permuted by the matching atom's permutation when exactly one atom
matches. -/
theorem C2_head_sequential {α : Type} [Inhabited α] [DecidableEq α]
    (r : Rule α) (facts : List (Rule α))
    (hb : ∀ a ∈ r.body, a.WF) (hh : r.head.WF) (hf : ∀ f ∈ facts, f.head.WF) :
    ∃ out, generator r facts = .ok out ∧ ∀ pr ∈ out,
      pr.2.head = (pr.2.body.filter (fun a => r.head.pred == a.pred)).foldl
          (fun hd a => permApply hd a.permutation) r.head ∧
      ((∀ a ∈ pr.2.body, a.pred ≠ r.head.pred) → pr.2.head = r.head) ∧
      (∀ a, pr.2.body.filter (fun x => r.head.pred == x.pred) = [a] →
        Atom.permute r.head a.permutation = .ok pr.2.head) := by
  refine ⟨_, generator_ok hb hh hf, ?_⟩
  intro pr hpr
  rw [List.mem_map] at hpr
  obtain ⟨comb, hcomb, rfl⟩ := hpr
  refine ⟨headFoldP_eq_filter, ?_, ?_⟩
  · intro hnone
    show headFoldP r.head comb = r.head
    rw [headFoldP_eq_filter]
    have hfil : comb.filter (fun a => r.head.pred == a.pred) = [] := by
      rw [List.filter_eq_nil_iff]
      intro a ha
      simp only [beq_iff_eq]
      exact fun hpe => hnone a ha hpe.symm
    rw [hfil]
    rfl
  · intro a hfil
    show Atom.permute r.head a.permutation = .ok (headFoldP r.head comb)
    rw [headFoldP_eq_filter, hfil]
    simp only [List.foldl_cons, List.foldl_nil]
    have hmem : a ∈ comb.filter (fun x => r.head.pred == x.pred) := by
      rw [hfil]
      exact List.mem_cons_self a []
    have ha : a ∈ comb := (List.mem_filter.mp hmem).1
    have hpred : r.head.pred = a.pred := by
      have := (List.mem_filter.mp hmem).2
      simpa using this
    have hperm := comb_perm_field hcomb a ha
    apply Atom.permute_ok_of_perm_range hh
    rw [hpred]
    exact hperm

theorem C2_witness :
    ∃ out, generator ruleP [factP] = .ok out ∧ ∀ pr ∈ out,
      pr.2.head = (pr.2.body.filter (fun a => ruleP.head.pred == a.pred)).foldl
          (fun hd a => permApply hd a.permutation) ruleP.head ∧
      ((∀ a ∈ pr.2.body, a.pred ≠ ruleP.head.pred) → pr.2.head = ruleP.head) ∧
      (∀ a, pr.2.body.filter (fun x => ruleP.head.pred == x.pred) = [a] →
        Atom.permute ruleP.head a.permutation = .ok pr.2.head) :=
  C2_head_sequential ruleP [factP] (by decide) (by decide) (by decide)

/-- C3 fails on the code: `permute_body` performs no length check, so an
order shorter than the body is accepted instead of raising
ArityMismatch. -/
theorem C3_counterexample :
    List.length [0] ≠ rulePQ.body.length ∧
    Rule.permute_body rulePQ [0] = .ok ⟨rulePQ.head, [⟨pP2, [3, 4], [0, 1]⟩]⟩ := by decide

/-- C3 (amended): `permute_body(order)` never raises ArityMismatch; for
any order whose entries are valid body positions it returns a rule with
`body[i] = original.body[order[i]]` and the head unchanged, regardless
of whether `len(order) == len(body)`. -/
theorem C3_permute_body_no_check {α : Type} [Inhabited α] (r : Rule α) (order : List Nat)
    (h : ∀ i ∈ order, i < r.body.length) :
    (r.permute_body order = .ok ⟨r.head, order.map (fun i => r.body.getD i default)⟩) ∧
    ∀ order' : List Nat, ∀ msg : String,
      r.permute_body order' ≠ .error (.arityMismatch msg) := by
  constructor
  · unfold Rule.permute_body
    rw [pyMapIndex_ok h]
  · intro order' msg hcontra
    unfold Rule.permute_body at hcontra
    cases hm : pyMapIndex r.body order' with
    | error e =>
      rw [hm] at hcontra
      have he := pyMapIndex_error hm
      subst he
      simp at hcontra
    | ok b =>
      rw [hm] at hcontra
      simp at hcontra

theorem C3_witness :
    (Rule.permute_body rulePQ [0] =
      .ok ⟨rulePQ.head, [0].map (fun i => rulePQ.body.getD i default)⟩) ∧
    ∀ order' : List Nat, ∀ msg : String,
      Rule.permute_body rulePQ order' ≠ .error (.arityMismatch msg) :=
  C3_permute_body_no_check rulePQ [0] (by decide)

/-- C4 fails on the code: the constructor records an explicitly supplied
permutation without any validation, so a public construction can yield
an Atom whose permutation has the wrong length (hence is no bijection on
`0..arity-1`). -/
theorem C4_counterexample :
    Atom.init (α := Nat) pP2 [1, 2] (some [0]) = .ok ⟨pP2, [1, 2], [0]⟩ ∧
    (⟨pP2, [1, 2], [0]⟩ : Atom Nat).permutation.length ≠
      (⟨pP2, [1, 2], [0]⟩ : Atom Nat).pred.arity := by decide

/-- C4 (amended): every successfully constructed Atom satisfies
`len(terms) == arity`; the recorded permutation is the supplied one
(unvalidated), defaulting to the identity `range(arity)` — a bijection —
when omitted; `permute` records the given order as the permutation, so
the permutation part of the invariant holds exactly when the supplied
sequence is itself a permutation of `0..arity-1`. -/
theorem C4_atom_invariant {α : Type} [Inhabited α] (pred : Pred) (terms : List α)
    (p? : Option (List Nat)) (a : Atom α) (h : Atom.init pred terms p? = .ok a) :
    a.terms.length = a.pred.arity ∧
    a.permutation = p?.getD (List.range pred.arity) ∧
    (p? = none → a.permutation.length = a.pred.arity ∧
      List.Perm a.permutation (List.range a.pred.arity)) ∧
    (∀ order : List Nat, ∀ b : Atom α, a.permute order = .ok b →
      b.terms.length = b.pred.arity ∧ b.permutation = order) := by
  unfold Atom.init at h
  by_cases hlen : terms.length = pred.arity
  · rw [if_neg (by omega)] at h
    cases h
    refine ⟨hlen, rfl, ?_, ?_⟩
    · intro hnone
      subst hnone
      simp
    · intro order b hab
      obtain ⟨_, h2, h3, _⟩ := Atom.permute_ok_inv hab
      exact ⟨h3, h2⟩
  · rw [if_pos (by omega)] at h
    cases h

theorem C4_witness :
    atomN2.terms.length = atomN2.pred.arity ∧
    atomN2.permutation = (none : Option (List Nat)).getD (List.range pP2.arity) ∧
    ((none : Option (List Nat)) = none → atomN2.permutation.length = atomN2.pred.arity ∧
      List.Perm atomN2.permutation (List.range atomN2.pred.arity)) ∧
    (∀ order : List Nat, ∀ b : Atom Nat, atomN2.permute order = .ok b →
      b.terms.length = b.pred.arity ∧ b.permutation = order) :=
  C4_atom_invariant pP2 [1, 2] none atomN2 (by decide)

/-- C5: every propagated fact in an emitted combination has exactly the
term multiset of the input fact it came from — terms are reordered,
never added, removed, or duplicated. -/
theorem C5_fact_term_multiset {α : Type} [Inhabited α] [DecidableEq α]
    (r : Rule α) (facts : List (Rule α))
    (hb : ∀ a ∈ r.body, a.WF) (hh : r.head.WF) (hf : ∀ f ∈ facts, f.head.WF) :
    ∃ out, generator r facts = .ok out ∧ ∀ pr ∈ out, ∀ pf ∈ pr.1,
      ∃ f ∈ facts, pf.head.pred = f.head.pred ∧ pf.body = f.body ∧
        (pf.head.terms : Multiset α) = (f.head.terms : Multiset α) := by
  refine ⟨_, generator_ok hb hh hf, ?_⟩
  intro pr hpr
  rw [List.mem_map] at hpr
  obtain ⟨comb, hcomb, rfl⟩ := hpr
  intro pf hpf
  have hpf' : pf ∈ pfsP facts comb := hpf
  obtain ⟨f, hff, a, ha, hpred, rfl⟩ := pfsP_mem hpf'
  refine ⟨f, hff, rfl, rfl, ?_⟩
  rw [Multiset.coe_eq_coe]
  apply permApply_terms_perm (hf f hff)
  rw [hpred]
  exact comb_perm_field hcomb a ha

theorem C5_witness :
    ∃ out, generator ruleP [factP] = .ok out ∧ ∀ pr ∈ out, ∀ pf ∈ pr.1,
      ∃ f ∈ [factP], pf.head.pred = f.head.pred ∧ pf.body = f.body ∧
        (pf.head.terms : Multiset Nat) = (f.head.terms : Multiset Nat) :=
  C5_fact_term_multiset ruleP [factP] (by decide) (by decide) (by decide)

/-- C6 fails on the code: an order of the correct length whose entries
are out of range makes `permute` raise IndexError instead of returning a
new Atom (and the failure is not an ArityMismatch). -/
theorem C6_counterexample :
    List.length [2, 2] = atomN2.pred.arity ∧
    Atom.permute atomN2 [2, 2] = .error .indexError := by decide

/-- C6 (amended): `permute(order)` raises ArityMismatch iff
`len(order) != arity`; when the length matches and every entry of
`order` is a valid index below the arity, it returns a new Atom with
`terms[i] = original.terms[order[i]]` and `permutation = order` (the
original is unchanged — `permute` is pure). -/
theorem C6_permute_spec {α : Type} [Inhabited α] (a : Atom α) (order : List Nat)
    (hw : a.WF) :
    (Atom.permute a order
        = .error (.arityMismatch "permute order must have same length as terms")
      ↔ order.length ≠ a.pred.arity) ∧
    (order.length = a.pred.arity → (∀ i ∈ order, i < a.pred.arity) →
      Atom.permute a order
        = .ok ⟨a.pred, order.map (fun i => a.terms.getD i default), order⟩) := by
  have hwl : a.terms.length = a.pred.arity := hw
  constructor
  · constructor
    · intro herr hlen
      unfold Atom.permute at herr
      rw [if_neg (by omega)] at herr
      cases hm : pyMapIndex a.terms order with
      | error e =>
        rw [hm] at herr
        have he := pyMapIndex_error hm
        subst he
        simp at herr
      | ok ts =>
        rw [hm] at herr
        have h2 : Atom.init a.pred ts (some order)
            = .error (.arityMismatch "permute order must have same length as terms") := herr
        have hts : ts.length = order.length := exMap_ok_length hm
        unfold Atom.init at h2
        rw [if_neg (by omega)] at h2
        simp at h2
    · intro hlen
      unfold Atom.permute
      rw [if_pos (by omega)]
  · intro hlen hbnd
    have := @Atom.permute_ok α _ a order hw (by omega)
      (fun i hi => by have := hbnd i hi; omega)
    rw [this]
    rfl

theorem C6_witness :
    ((Atom.permute atomN2 [1, 0]
        = .error (.arityMismatch "permute order must have same length as terms")
      ↔ List.length [1, 0] ≠ atomN2.pred.arity) ∧
    (List.length [1, 0] = atomN2.pred.arity → (∀ i ∈ [1, 0], i < atomN2.pred.arity) →
      Atom.permute atomN2 [1, 0]
        = .ok ⟨atomN2.pred, [1, 0].map (fun i => atomN2.terms.getD i default), [1, 0]⟩)) :=
  C6_permute_spec atomN2 [1, 0] (by decide)

/-- C7: constructing an Atom raises ArityMismatch exactly when the term
sequence's length differs from the predicate's arity; in particular two
terms against arity 3 fail. -/
theorem C7_init_arity_iff {α : Type} (pred : Pred) (terms : List α)
    (p? : Option (List Nat)) :
    (Atom.init pred terms p?
        = .error (.arityMismatch "terms must have same length as pred arity")
      ↔ terms.length ≠ pred.arity) ∧
    Atom.init pP3 ([1, 2] : List Nat) none
      = .error (.arityMismatch "terms must have same length as pred arity") := by
  constructor
  · constructor
    · intro h hlen
      unfold Atom.init at h
      rw [if_neg (by omega)] at h
      simp at h
    · intro hlen
      unfold Atom.init
      rw [if_pos (by omega)]
  · decide

theorem C7_witness :
    Atom.init pP3 ([1, 2] : List Nat) none
      = .error (.arityMismatch "terms must have same length as pred arity") :=
  (C7_init_arity_iff pP3 ([1, 2] : List Nat) none).2

/-- C8: permuting an Atom by a permutation `p` of `0..arity-1` and then
by the inverse permutation recovers the original term sequence
exactly. -/
theorem C8_permute_inverse {α : Type} [Inhabited α] (a : Atom α) (p : List Nat)
    (hw : a.WF) (hp : List.Perm p (List.range a.pred.arity)) :
    ∃ b c, a.permute p = .ok b ∧ b.permute (invPerm p) = .ok c ∧ c.terms = a.terms := by
  have hn : p.length = a.pred.arity := perm_range_length hp
  have hwl : a.terms.length = a.pred.arity := hw
  have hb : a.permute p = .ok (permApply a p) := Atom.permute_ok_of_perm_range hw hp
  have hbw : (permApply a p).WF := permApply_WF hn
  have hbterms : (permApply a p).terms.length = p.length := permApply_terms_length a p
  have hmemp : ∀ j, j < p.length → j ∈ p := by
    intro j hj
    apply hp.mem_iff.mpr
    rw [List.mem_range]
    omega
  have hinvmem : ∀ i ∈ invPerm p, i < (permApply a p).terms.length := by
    intro i hi
    rw [invPerm, List.mem_map] at hi
    obtain ⟨j, hj, rfl⟩ := hi
    rw [List.mem_range] at hj
    have := List.indexOf_lt_length.mpr (hmemp j hj)
    omega
  have hinvlen : (invPerm p).length = p.length := by simp [invPerm]
  have hc : (permApply a p).permute (invPerm p) = .ok (permApply (permApply a p) (invPerm p)) :=
    Atom.permute_ok hbw (by omega) hinvmem
  refine ⟨permApply a p, permApply (permApply a p) (invPerm p), hb, hc, ?_⟩
  apply List.ext_getElem
  · simp [permApply, invPerm]
    omega
  · intro k h1 h2
    have hk : k < p.length := by
      simpa [permApply, invPerm] using h1
    have hkmem : k ∈ p := hmemp k hk
    have hidx : p.indexOf k < p.length := List.indexOf_lt_length.mpr hkmem
    have hkinv : k < (invPerm p).length := by omega
    have hidxb : p.indexOf k < (permApply a p).terms.length := by omega
    have e1 : (permApply (permApply a p) (invPerm p)).terms[k]
        = (permApply a p).terms.getD ((invPerm p)[k]) default := by
      simp only [permApply]
      rw [List.getElem_map]
    have e2 : (invPerm p)[k] = p.indexOf k := by
      simp only [invPerm]
      rw [List.getElem_map, List.getElem_range]
    rw [e1, e2]
    have e3 : (permApply a p).terms.getD (p.indexOf k) default
        = (permApply a p).terms[p.indexOf k] :=
      List.getD_eq_getElem _ _ hidxb
    rw [e3]
    have e4 : (permApply a p).terms[p.indexOf k]
        = a.terms.getD (p[p.indexOf k]) default := by
      simp only [permApply]
      rw [List.getElem_map]
    rw [e4]
    have e5 : p[p.indexOf k] = k := List.getElem_indexOf hidx
    rw [e5]
    exact List.getD_eq_getElem _ _ h2

theorem C8_witness :
    ∃ b c, Atom.permute (⟨pP3, [4, 5, 6], [0, 1, 2]⟩ : Atom Nat) [2, 0, 1] = .ok b ∧
      b.permute (invPerm [2, 0, 1]) = .ok c ∧
      c.terms = (⟨pP3, [4, 5, 6], [0, 1, 2]⟩ : Atom Nat).terms :=
  C8_permute_inverse ⟨pP3, [4, 5, 6], [0, 1, 2]⟩ [2, 0, 1] (by decide) (by decide)

/-- C9: in every emitted combination the propagated fact list contains,
for each input fact, one permuted copy per atom of the combination whose
predicate equals the fact's head predicate (so k matching atoms yield k
copies, and a fact matching no atom contributes nothing — no emitted
fact carries its predicate). -/
theorem C9_fact_copies {α : Type} [Inhabited α] [DecidableEq α]
    (r : Rule α) (facts : List (Rule α))
    (hb : ∀ a ∈ r.body, a.WF) (hh : r.head.WF) (hf : ∀ f ∈ facts, f.head.WF) :
    ∃ out, generator r facts = .ok out ∧ ∀ pr ∈ out,
      pr.1 = facts.flatMap (fun f =>
        (pr.2.body.filter (fun a => f.head.pred == a.pred)).map
          (fun a => ⟨permApply f.head a.permutation, f.body⟩)) ∧
      pr.1.length = (facts.map
        (fun f => pr.2.body.countP (fun a => f.head.pred == a.pred))).sum ∧
      (∀ f ∈ facts, pr.2.body.countP (fun a => f.head.pred == a.pred) = 0 →
        ∀ pf ∈ pr.1, pf.head.pred ≠ f.head.pred) := by
  refine ⟨_, generator_ok hb hh hf, ?_⟩
  intro pr hpr
  rw [List.mem_map] at hpr
  obtain ⟨comb, hcomb, rfl⟩ := hpr
  refine ⟨rfl, ?_, ?_⟩
  · show (pfsP facts comb).length = _
    rw [pfsP, List.length_flatMap]
    have hfun : (List.length ∘ fun f : Rule α =>
        ((comb.filter (fun a => f.head.pred == a.pred)).map
          (fun a => (⟨permApply f.head a.permutation, f.body⟩ : Rule α))))
        = fun f : Rule α => comb.countP (fun a => f.head.pred == a.pred) := by
      funext f
      simp [List.countP_eq_length_filter]
    rw [hfun]
  · intro f hfin hcount pf hpf
    have hpf' : pf ∈ pfsP facts comb := hpf
    obtain ⟨f', hf', a, ha, hpred, rfl⟩ := pfsP_mem hpf'
    intro heq
    rw [permApply_pred] at heq
    have hcount' : comb.countP (fun a => f.head.pred == a.pred) = 0 := hcount
    rw [List.countP_eq_zero] at hcount'
    apply hcount' a ha
    simp only [beq_iff_eq]
    exact heq.symm.trans hpred

theorem C9_witness :
    ∃ out, generator ruleRR [factR] = .ok out ∧ ∀ pr ∈ out,
      pr.1 = [factR].flatMap (fun f =>
        (pr.2.body.filter (fun a => f.head.pred == a.pred)).map
          (fun a => ⟨permApply f.head a.permutation, f.body⟩)) ∧
      pr.1.length = ([factR].map
        (fun f => pr.2.body.countP (fun a => f.head.pred == a.pred))).sum ∧
      (∀ f ∈ [factR], pr.2.body.countP (fun a => f.head.pred == a.pred) = 0 →
        ∀ pf ∈ pr.1, pf.head.pred ≠ f.head.pred) :=
  C9_fact_copies ruleRR [factR] (by decide) (by decide) (by decide)

/-- C10 fails on the code: `filter_facts` unpacks `filename.split(".")`
into exactly two names, so a file name with two dots (or none) raises
ValueError and nothing is written, although the claim promises a write
for every input file name. -/
theorem C10_counterexample :
    filter_facts fnameBad 1 ["x"] = .error .valueError ∧
    min 1 (List.length ["x"]) = 1 := by decide

/-- C10 (amended): for every input file name that splits on `.` into
exactly two parts, `filter_facts` writes to `basename-<num>.<ext>`
exactly `min(num, number of input lines)` lines, every written line
drawn from the input lines without exceeding input multiplicity (the
written lines are a prefix of a shuffle of the input). -/
theorem C10_filter_facts_spec (filename basename ext : List Char) (num : Nat)
    (lines shuffled : List String)
    (hsplit : pySplitOn '.' filename = [basename, ext])
    (hperm : List.Perm shuffled lines) :
    filter_facts filename num shuffled =
      .ok (basename ++ ('-' :: (Nat.toDigits 10 num ++ ('.' :: ext))),
        shuffled.take (min num shuffled.length)) ∧
    (shuffled.take (min num shuffled.length)).length = min num lines.length ∧
    (shuffled.take (min num shuffled.length)).Subperm lines := by
  refine ⟨?_, ?_, ?_⟩
  · unfold filter_facts
    rw [hsplit]
  · rw [List.length_take]
    have := hperm.length_eq
    omega
  · exact (List.take_sublist _ _).subperm.trans hperm.subperm

theorem C10_witness :
    filter_facts fnameGood 1 ["x", "y"] =
      .ok (['a'] ++ ('-' :: (Nat.toDigits 10 1 ++ ('.' :: ['b']))),
        ["x", "y"].take (min 1 (List.length ["x", "y"]))) ∧
    (["x", "y"].take (min 1 (List.length ["x", "y"]))).length
      = min 1 (List.length ["x", "y"]) ∧
    (["x", "y"].take (min 1 (List.length ["x", "y"]))).Subperm ["x", "y"] :=
  C10_filter_facts_spec fnameGood ['a'] ['b'] 1 ["x", "y"] ["x", "y"]
    (by decide) (by decide)

end Genprog
